import Mathlib

/-!
Verification of the curve25519 scalar arithmetic and key-derivation layer.

The repository contains `src/curve25519/scalar.rs` (the `Scalar` type with
clamping, addition and Barrett multiplication) and `src/curve25519/mod.rs`
(`PrivateKey`, `PublicKey`, `derive_public_key`, `gen_keypair`).  The
`arithmetic` (U256/U512), `field`, `point` and `sha512` modules are referenced
by that code but are not part of the visible sources; they are modelled here
from the specification.
-/

set_option maxRecDepth 100000

set_option exponentiation.threshold 1024

namespace Curve25519

/-! ## Byte strings -/

/-- Little-endian value of a list of bytes (first byte least significant). -/
def leVal (bs : List Nat) : Nat := bs.foldr (fun b acc => b + 256 * acc) 0

/-- Well-formed byte string: every entry is an 8-bit value. -/
def bytesWF (bs : List Nat) : Prop := ∀ b ∈ bs, b < 256

instance (bs : List Nat) : Decidable (bytesWF bs) := by
  unfold bytesWF; infer_instance

/-! ## U256 and U512

Modelled from the spec: fixed-width unsigned integers as 64-bit limb
sequences, little-endian positional value, with carry-propagating (wrapping)
addition, borrow-propagating subtraction (the borrow flag is returned and
consumed by a constant-time select), widening multiplication, and
constant-time conditional selection. -/

/-- A 256-bit unsigned integer as four 64-bit limbs, least significant first. -/
structure U256 where
  l0 : Nat
  l1 : Nat
  l2 : Nat
  l3 : Nat
deriving DecidableEq

/-- A 512-bit unsigned integer as eight 64-bit limbs, least significant first. -/
structure U512 where
  l0 : Nat
  l1 : Nat
  l2 : Nat
  l3 : Nat
  l4 : Nat
  l5 : Nat
  l6 : Nat
  l7 : Nat
deriving DecidableEq

/-- Positional value of a `U256`. -/
def U256.val (x : U256) : Nat :=
  x.l0 + 2 ^ 64 * x.l1 + 2 ^ 128 * x.l2 + 2 ^ 192 * x.l3

/-- Positional value of a `U512`. -/
def U512.val (x : U512) : Nat :=
  x.l0 + 2 ^ 64 * x.l1 + 2 ^ 128 * x.l2 + 2 ^ 192 * x.l3 +
    2 ^ 256 * x.l4 + 2 ^ 320 * x.l5 + 2 ^ 384 * x.l6 + 2 ^ 448 * x.l7

/-- Decompose a natural number into the four 64-bit limbs of a `U256`
(the value is taken modulo 2^256). -/
def U256.ofVal (n : Nat) : U256 :=
  ⟨n % 2 ^ 64, n / 2 ^ 64 % 2 ^ 64, n / 2 ^ 128 % 2 ^ 64, n / 2 ^ 192 % 2 ^ 64⟩

/-- Decompose a natural number into the eight 64-bit limbs of a `U512`
(the value is taken modulo 2^512). -/
def U512.ofVal (n : Nat) : U512 :=
  ⟨n % 2 ^ 64, n / 2 ^ 64 % 2 ^ 64, n / 2 ^ 128 % 2 ^ 64, n / 2 ^ 192 % 2 ^ 64,
   n / 2 ^ 256 % 2 ^ 64, n / 2 ^ 320 % 2 ^ 64, n / 2 ^ 384 % 2 ^ 64,
   n / 2 ^ 448 % 2 ^ 64⟩

/-- Modelled from the spec: `from(u64)` embeds a 64-bit value in the low limb. -/
def U256.ofU64 (x : Nat) : U256 := U256.ofVal (x % 2 ^ 64)

/-- Modelled from the spec: limb-wise addition with carry propagation; the
result wraps silently modulo 2^256. -/
def U256.add (a b : U256) : U256 := U256.ofVal ((a.val + b.val) % 2 ^ 256)

/-- Modelled from the spec: wrapping subtraction modulo 2^256 (limb-wise with
borrow propagation, final borrow discarded). -/
def U256.sub (a b : U256) : U256 :=
  U256.ofVal ((a.val + (2 ^ 256 - b.val % 2 ^ 256)) % 2 ^ 256)

/-- Modelled from the spec: `sub_with_borrow` returns the wrapped difference
together with the final borrow flag (0 when `a ≥ b`, 1 otherwise). -/
def U256.sub_with_borrow (a b : U256) : U256 × Nat :=
  (U256.sub a b, if a.val < b.val then 1 else 0)

/-- Modelled from the spec: 256×256→512 widening multiplication. -/
def U256.mul (a b : U256) : U512 := U512.ofVal (a.val * b.val)

/-- Modelled from the spec: low 256 bits of a `U512`. -/
def U512.lo (x : U512) : U256 := ⟨x.l0, x.l1, x.l2, x.l3⟩

/-- Modelled from the spec: 512×256 widening multiplication as required by
Barrett reduction, returning the pair (high 256 bits, low 512 bits) of the
768-bit product. -/
def U512.mulU256 (a : U512) (b : U256) : U256 × U512 :=
  (U256.ofVal (a.val * b.val / 2 ^ 512), U512.ofVal (a.val * b.val))

/-- Modelled from the spec: constant-time conditional select, returning `b`
when the choice bit is set and `a` otherwise. -/
def U256.conditional_select (a b : U256) (choice : Bool) : U256 :=
  if choice then b else a

/-! ## The Scalar type (translated from src/curve25519/scalar.rs) -/

/-- The group order L = 2^252 + 27742317777372353535851937790883648493,
with the limb values of the source constant. -/
def L : U256 :=
  ⟨0x5812631a5cf5d3ed, 0x14def9dea2f79cd6, 0x0000000000000000,
   0x1000000000000000⟩

/-- The precomputed Barrett constant, with the limb values of the source
constant. -/
def R : U256 :=
  ⟨0x9fb673968c28b04c, 0xac84188574218ca6, 0xffffffffffffffff,
   0x3fffffffffffffff⟩

/-- A scalar in Z/(L), the order of the curve group. -/
structure Scalar where
  value : U256
deriving DecidableEq

/-- `Scalar::clamped`: clamp 32 bytes per RFC 8032 §5.1.5 and read the four
64-bit limbs little-endian from the clamped bytes. -/
def Scalar.clamped (bytes : List Nat) : Scalar :=
  let bytes1 := bytes.set 0 (bytes.getD 0 0 &&& 248)
  let bytes2 := bytes1.set 31 ((bytes1.getD 31 0 &&& 127) ||| 64)
  { value :=
      ⟨leVal ((bytes2.drop 0).take 8), leVal ((bytes2.drop 8).take 8),
       leVal ((bytes2.drop 16).take 8), leVal ((bytes2.drop 24).take 8)⟩ }

/-- `Scalar::reduce_after_addition`: subtract L with borrow and keep the
subtracted value exactly when no borrow occurred (constant-time select). -/
def Scalar.reduce_after_addition (s : Scalar) : Scalar :=
  let r := U256.sub_with_borrow s.value L
  let l_removed : Scalar := ⟨r.1⟩
  let borrow := r.2
  if borrow == 0 then l_removed else s

/-- `Scalar::reduce_barret`: Barrett reduction of a 512-bit product.  The
quotient estimate is assembled limb-wise from the high part of the 768-bit
product with the fixed shift by 58 within each 64-bit limb, exactly as in the
source. -/
def Scalar.reduce_barret (large : U512) : Scalar :=
  let p := U512.mulU256 large R
  let hi := p.1
  let lo := p.2
  let q : U256 :=
    ⟨((hi.l0 <<< 6) % 2 ^ 64) ||| (lo.l7 >>> 58),
     ((hi.l1 <<< 6) % 2 ^ 64) ||| (hi.l0 >>> 58),
     ((hi.l2 <<< 6) % 2 ^ 64) ||| (hi.l1 >>> 58),
     ((hi.l3 <<< 6) % 2 ^ 64) ||| (hi.l2 >>> 58)⟩
  let to_subtract := U256.mul q L
  let scalar : Scalar := ⟨U256.sub large.lo to_subtract.lo⟩
  scalar.reduce_after_addition

/-- `From<u64> for Scalar`. -/
def Scalar.ofU64 (x : Nat) : Scalar := ⟨U256.ofU64 x⟩

/-- `AddAssign`/`Add for Scalar`: wrapping 256-bit addition followed by the
single conditional subtraction of L. -/
def Scalar.add (a b : Scalar) : Scalar :=
  Scalar.reduce_after_addition ⟨U256.add a.value b.value⟩

/-- `MulAssign`/`Mul for Scalar`: full 512-bit product followed by Barrett
reduction. -/
def Scalar.mul (a b : Scalar) : Scalar :=
  Scalar.reduce_barret (U256.mul a.value b.value)

/-- A scalar is reduced when its limbs are the canonical decomposition of its
value and that value lies below the group order. -/
def Scalar.Reduced (s : Scalar) : Prop :=
  s.value = U256.ofVal s.value.val ∧ s.value.val < L.val

instance (s : Scalar) : Decidable s.Reduced := by
  unfold Scalar.Reduced; infer_instance

/-! ## SHA-512

Modelled from the spec: the external hash primitive `hash(bytes) -> [u8; 64]`
is SHA-512 (FIPS 180-4); deterministic, total on byte strings. -/

/-- Right rotation within 64 bits. -/
def rotr (x n : Nat) : Nat := ((x >>> n) ||| (x <<< (64 - n))) % 2 ^ 64

/-- The eighty SHA-512 round constants (FIPS 180-4 §4.2.3). -/
def shaK : List Nat :=
  [4794697086780616226, 8158064640168781261, 13096744586834688815,
   16840607885511220156, 4131703408338449720, 6480981068601479193,
   10538285296894168987, 12329834152419229976, 15566598209576043074,
   1334009975649890238, 2608012711638119052, 6128411473006802146,
   8268148722764581231, 9286055187155687089, 11230858885718282805,
   13951009754708518548, 16472876342353939154, 17275323862435702243,
   1135362057144423861, 2597628984639134821, 3308224258029322869,
   5365058923640841347, 6679025012923562964, 8573033837759648693,
   10970295158949994411, 12119686244451234320, 12683024718118986047,
   13788192230050041572, 14330467153632333762, 15395433587784984357,
   489312712824947311, 1452737877330783856, 2861767655752347644,
   3322285676063803686, 5560940570517711597, 5996557281743188959,
   7280758554555802590, 8532644243296465576, 9350256976987008742,
   10552545826968843579, 11727347734174303076, 12113106623233404929,
   14000437183269869457, 14369950271660146224, 15101387698204529176,
   15463397548674623760, 17586052441742319658, 1182934255886127544,
   1847814050463011016, 2177327727835720531, 2830643537854262169,
   3796741975233480872, 4115178125766777443, 5681478168544905931,
   6601373596472566643, 7507060721942968483, 8399075790359081724,
   8693463985226723168, 9568029438360202098, 10144078919501101548,
   10430055236837252648, 11840083180663258601, 13761210420658862357,
   14299343276471374635, 14566680578165727644, 15097957966210449927,
   16922976911328602910, 17689382322260857208, 500013540394364858,
   748580250866718886, 1242879168328830382, 1977374033974150939,
   2944078676154940804, 3659926193048069267, 4368137639120453308,
   4836135668995329356, 5532061633213252278, 6448918945643986474,
   6902733635092675308, 7801388544844847127]

/-- The SHA-512 initial hash value (FIPS 180-4 §5.3.5). -/
def shaH0 : List Nat :=
  [7640891576956012808, 13503953896175478587, 4354685564936845355,
   11912009170470909681, 5840696475078001361, 11170449401992604703,
   2270897969802886507, 6620516959819538809]

/-- Big-endian word value of a list of bytes. -/
def beWord (bs : List Nat) : Nat := bs.foldl (fun acc b => 256 * acc + b) 0

/-- The sixteen 64-bit big-endian words of a 128-byte block. -/
def w16 (block : List Nat) : List Nat :=
  (List.range 16).map (fun i => beWord ((block.drop (8 * i)).take 8))

/-- Extend the message schedule by the given number of words. -/
def extendW : Nat → List Nat → List Nat
  | 0, w => w
  | f + 1, w =>
      let n := w.length
      let x15 := w.getD (n - 15) 0
      let x2 := w.getD (n - 2) 0
      let s0 := rotr x15 1 ^^^ rotr x15 8 ^^^ (x15 >>> 7)
      let s1 := rotr x2 19 ^^^ rotr x2 61 ^^^ (x2 >>> 6)
      extendW f (w ++ [(w.getD (n - 16) 0 + s0 + w.getD (n - 7) 0 + s1) % 2 ^ 64])

/-- The eight working variables of the SHA-512 compression function. -/
structure SHAState where
  a : Nat
  b : Nat
  c : Nat
  d : Nat
  e : Nat
  f : Nat
  g : Nat
  h : Nat

/-- One round of the SHA-512 compression function. -/
def shaRound (st : SHAState) (kw : Nat × Nat) : SHAState :=
  let S1 := rotr st.e 14 ^^^ rotr st.e 18 ^^^ rotr st.e 41
  let ch := (st.e &&& st.f) ^^^ ((st.e ^^^ (2 ^ 64 - 1)) &&& st.g)
  let t1 := (st.h + S1 + ch + kw.1 + kw.2) % 2 ^ 64
  let S0 := rotr st.a 28 ^^^ rotr st.a 34 ^^^ rotr st.a 39
  let mj := (st.a &&& st.b) ^^^ (st.a &&& st.c) ^^^ (st.b &&& st.c)
  let t2 := (S0 + mj) % 2 ^ 64
  ⟨(t1 + t2) % 2 ^ 64, st.a, st.b, st.c, (st.d + t1) % 2 ^ 64, st.e, st.f, st.g⟩

/-- Process one 128-byte block, updating the eight hash words. -/
def processBlock (hs : List Nat) (block : List Nat) : List Nat :=
  let w := extendW 64 (w16 block)
  let init : SHAState :=
    ⟨hs.getD 0 0, hs.getD 1 0, hs.getD 2 0, hs.getD 3 0,
     hs.getD 4 0, hs.getD 5 0, hs.getD 6 0, hs.getD 7 0⟩
  let st := (shaK.zip w).foldl shaRound init
  [(hs.getD 0 0 + st.a) % 2 ^ 64, (hs.getD 1 0 + st.b) % 2 ^ 64,
   (hs.getD 2 0 + st.c) % 2 ^ 64, (hs.getD 3 0 + st.d) % 2 ^ 64,
   (hs.getD 4 0 + st.e) % 2 ^ 64, (hs.getD 5 0 + st.f) % 2 ^ 64,
   (hs.getD 6 0 + st.g) % 2 ^ 64, (hs.getD 7 0 + st.h) % 2 ^ 64]

/-- SHA-512 padding: append 0x80, zeros, and the 128-bit big-endian bit
length, to a multiple of 128 bytes. -/
def padMessage (msg : List Nat) : List Nat :=
  let len := msg.length
  msg ++ [0x80] ++ List.replicate ((239 - len % 128) % 128) 0 ++
    (List.range 16).map (fun i => ((8 * len) >>> (8 * (15 - i))) % 256)

/-- Split a list into 128-byte chunks (fuel-bounded). -/
def chunks : Nat → List Nat → List (List Nat)
  | 0, _ => []
  | _, [] => []
  | f + 1, l => l.take 128 :: chunks f (l.drop 128)

/-- Modelled from the spec: the external SHA-512 primitive, mapping a byte
string to its 64-byte digest. -/
def sha512hash (msg : List Nat) : List Nat :=
  let padded := padMessage msg
  let hs := (chunks (padded.length / 128 + 1) padded).foldl processBlock shaH0
  (hs.map (fun x => (List.range 8).map (fun i => (x >>> (8 * (7 - i))) % 256))).flatten

/-! ## Edwards-curve points

Modelled from the spec: the `point` module (twisted Edwards curve of RFC 8032
§5.1, extended homogeneous coordinates), with the fixed base point `B`,
constant-time double-and-add scalar multiplication over the scalar's 256-bit
value, and compression to the canonical 32-byte encoding (little-endian y with
the sign of x folded into the top bit). -/

/-- The coordinate field prime 2^255 − 19. -/
def p25519 : Nat := 2 ^ 255 - 19

/-- Field addition modulo 2^255 − 19. -/
def fAdd (a b : Nat) : Nat := (a + b) % p25519

/-- Field subtraction modulo 2^255 − 19. -/
def fSub (a b : Nat) : Nat := (a + (p25519 - b % p25519)) % p25519

/-- Field multiplication modulo 2^255 − 19. -/
def fMul (a b : Nat) : Nat := a * b % p25519

/-- Fuel-bounded square-and-multiply modular exponentiation. -/
def powModAux : Nat → Nat → Nat → Nat → Nat
  | 0, _, _, _ => 1
  | f + 1, b, e, m =>
      if e = 0 then 1 % m
      else
        let x := powModAux f b (e / 2) m
        if e % 2 = 1 then x * x % m * b % m else x * x % m

/-- Modular exponentiation with enough fuel for 256-bit exponents. -/
def powMod (b e m : Nat) : Nat := powModAux 260 b e m

/-- The Edwards curve constant d = −121665/121666 modulo 2^255 − 19. -/
def dConst : Nat :=
  37095705934669439343138083508754565189542113879843219016388785533085940283555

/-- A curve point in extended homogeneous coordinates (X : Y : Z : T). -/
structure EPoint where
  X : Nat
  Y : Nat
  Z : Nat
  T : Nat

/-- Point addition in extended homogeneous coordinates (RFC 8032 §5.1.4). -/
def ptAdd (P Q : EPoint) : EPoint :=
  let A := fMul (fSub P.Y P.X) (fSub Q.Y Q.X)
  let B := fMul (fAdd P.Y P.X) (fAdd Q.Y Q.X)
  let C := fMul (fMul P.T (fMul 2 dConst)) Q.T
  let D := fMul P.Z (fMul 2 Q.Z)
  ⟨fMul (fSub B A) (fSub D C), fMul (fAdd D C) (fAdd B A),
   fMul (fSub D C) (fAdd D C), fMul (fSub B A) (fAdd B A)⟩

/-- Point doubling in extended homogeneous coordinates (RFC 8032 §5.1.4). -/
def ptDouble (P : EPoint) : EPoint :=
  let A := fMul P.X P.X
  let B := fMul P.Y P.Y
  let C := fMul 2 (fMul P.Z P.Z)
  let H := fAdd A B
  let E := fSub H (fMul (fAdd P.X P.Y) (fAdd P.X P.Y))
  let G := fSub A B
  let F := fAdd C G
  ⟨fMul E F, fMul G H, fMul F G, fMul E H⟩

/-- The neutral element of the curve group. -/
def idPoint : EPoint := ⟨0, 1, 1, 0⟩

/-- The fixed base point B of RFC 8032 §5.1 in extended coordinates. -/
def basePoint : EPoint :=
  ⟨15112221349535400772501151409588531511454012693041857206046113283949847762202,
   46316835694926478169428394003475163141307993866256225615783033603165251855960,
   1,
   46827403850823179245072216630277197565144205554125654976674165829533817101731⟩

/-- Fuel-bounded double-and-add loop over the scalar bits, least significant
first. -/
def smulAux : Nat → Nat → EPoint → EPoint → EPoint
  | 0, _, acc, _ => acc
  | f + 1, s, acc, P =>
      smulAux f (s / 2) (if s % 2 = 1 then ptAdd acc P else acc) (ptDouble P)

/-- `operator*(Point, Scalar)`: scalar multiplication over the scalar's
256-bit value. -/
def pointMulScalar (P : EPoint) (s : Scalar) : EPoint :=
  smulAux 256 s.value.val idPoint P

/-- Compression of a point into its canonical 32-byte encoding. -/
def compress (P : EPoint) : List Nat :=
  let zinv := powMod P.Z (p25519 - 2) p25519
  let x := P.X * zinv % p25519
  let y := P.Y * zinv % p25519
  (List.range 32).map (fun i =>
    if i = 31 then ((y >>> 248) % 256) ||| ((x % 2) <<< 7)
    else (y >>> (8 * i)) % 256)

/-! ## Keys (translated from src/curve25519/mod.rs) -/

/-- A public key: 32 bytes, the compressed point encoding. -/
structure PublicKey where
  bytes : List Nat
deriving DecidableEq

/-- A private key: 32 owned secret bytes. -/
structure PrivateKey where
  bytes : List Nat
deriving DecidableEq

/-- The observable outcome of `derive_public_key`: the returned public key,
the secret-derived data written to standard output (the source's
`println!` of the intermediate scalar, recorded as its four limbs), and the
state of the borrowed private key after the call. -/
structure DeriveResult where
  pk : PublicKey
  emitted : List (List Nat)
  key_after : PrivateKey
deriving DecidableEq

/-- `PrivateKey::derive_public_key`: hash the private bytes, clamp the low 32
bytes of the digest into a scalar, print the scalar (the source's `println!`,
modelled by the `emitted` channel), and compress base-point-times-scalar into
the public key.  The private key is borrowed immutably. -/
def derive_public_key (k : PrivateKey) : DeriveResult :=
  let hash := sha512hash k.bytes
  let scalar := Scalar.clamped (hash.take 32)
  { pk := ⟨compress (pointMulScalar basePoint scalar)⟩
    emitted := [[scalar.value.l0, scalar.value.l1, scalar.value.l2, scalar.value.l3]]
    key_after := k }

/-- `gen_keypair`: fill the private key bytes from the random source and
derive the public key from them. -/
def gen_keypair (randomBytes : List Nat) : PublicKey × PrivateKey :=
  let priv := PrivateKey.mk randomBytes
  ((derive_public_key priv).pk, priv)

/-- The five-step key-derivation pipeline exactly as the spec words it: hash
the private bytes with the external SHA-512 primitive, take the low 32 bytes,
clamp them into a scalar, multiply the fixed base point by that scalar, and
compress the result into the 32 public-key bytes. -/
def spec_key_derivation (k : PrivateKey) : PublicKey :=
  let step1 := sha512hash k.bytes
  let step2 := step1.take 32
  let step3 := Scalar.clamped step2
  let step4 := pointMulScalar basePoint step3
  ⟨compress step4⟩

/-- The 32 private-key bytes of the source's `test_key_derivation_examples`. -/
def testPrivateBytes : List Nat :=
  [0x9d, 0x61, 0xb1, 0x9d, 0xef, 0xfd, 0x5a, 0x60, 0xba, 0x84, 0x4a, 0xf4,
   0x92, 0xec, 0x2c, 0xc4, 0x44, 0x49, 0xc5, 0x69, 0x7b, 0x32, 0x69, 0x19,
   0x70, 0x3b, 0xac, 0x03, 0x1c, 0xae, 0x7f, 0x60]

/-- The 32 expected public-key bytes of the source's
`test_key_derivation_examples`. -/
def testPublicBytes : List Nat :=
  [0xd7, 0x5a, 0x98, 0x01, 0x82, 0xb1, 0x0a, 0xb7, 0xd5, 0x4b, 0xfe, 0xd3,
   0xc9, 0x64, 0x07, 0x3a, 0x0e, 0xe1, 0x72, 0xf3, 0xda, 0xa6, 0x23, 0x25,
   0xaf, 0x02, 0x1a, 0x68, 0xf7, 0x07, 0x51, 0x1a]

/-- The bytes denoted by the spec's private-key hex string
`9d61b19deffd5a60ba844af492ec2cc44449c5697b326919703bac031cae7f` (§8),
which decodes to 31 bytes. -/
def specPrivateBytes : List Nat :=
  [0x9d, 0x61, 0xb1, 0x9d, 0xef, 0xfd, 0x5a, 0x60, 0xba, 0x84, 0x4a, 0xf4,
   0x92, 0xec, 0x2c, 0xc4, 0x44, 0x49, 0xc5, 0x69, 0x7b, 0x32, 0x69, 0x19,
   0x70, 0x3b, 0xac, 0x03, 0x1c, 0xae, 0x7f]

/-- The bytes denoted by the spec's public-key hex string
`d75a980182b10ab7d54bfed3c964073a0ee172f3daa62325af021a68f70751` (§8),
which decodes to 31 bytes. -/
def specPublicBytes : List Nat :=
  [0xd7, 0x5a, 0x98, 0x01, 0x82, 0xb1, 0x0a, 0xb7, 0xd5, 0x4b, 0xfe, 0xd3,
   0xc9, 0x64, 0x07, 0x3a, 0x0e, 0xe1, 0x72, 0xf3, 0xda, 0xa6, 0x23, 0x25,
   0xaf, 0x02, 0x1a, 0x68, 0xf7, 0x07, 0x51]

/-! ## Limb decomposition lemmas -/

theorem U256.ofVal_val (n : Nat) : (U256.ofVal n).val = n % 2 ^ 256 := by
  unfold U256.ofVal U256.val
  simp only
  omega

theorem U512.ofVal_val512 (n : Nat) : (U512.ofVal n).val = n % 2 ^ 512 := by
  unfold U512.ofVal U512.val
  simp only
  omega

theorem U256.val_lt_of_ofVal (n : Nat) : (U256.ofVal n).val < 2 ^ 256 := by
  rw [U256.ofVal_val]; exact Nat.mod_lt _ (by norm_num)

theorem U256.ofVal_mod (n : Nat) :
    U256.ofVal (n % 2 ^ 256) = U256.ofVal n := by
  unfold U256.ofVal
  simp only [U256.mk.injEq]
  omega

/-! ## Bit-manipulation lemmas for the Barrett quotient limbs -/

theorem lor_disjoint {k b : Nat} (a : Nat) (h : b < 2 ^ k) :
    (2 ^ k * a) ||| b = 2 ^ k * a + b := by
  apply Nat.eq_of_testBit_eq
  intro i
  rw [Nat.testBit_lor, Nat.testBit_mul_pow_two_add a h i, Nat.testBit_mul_pow_two]
  by_cases hik : i < k
  · simp [hik, Nat.not_le_of_lt hik]
  · have hb : b.testBit i = false :=
      Nat.testBit_lt_two_pow (Nat.lt_of_lt_of_le h (Nat.pow_le_pow_right (by norm_num) (Nat.le_of_not_lt hik)))
    simp [hik, Nat.le_of_not_lt hik, hb]

theorem limb_combine (m : Nat) :
    (((m / 2 ^ 64 % 2 ^ 64) <<< 6) % 2 ^ 64) ||| ((m % 2 ^ 64) >>> 58) =
      m / 2 ^ 58 % 2 ^ 64 := by
  rw [Nat.shiftLeft_eq, Nat.shiftRight_eq_div_pow]
  have h1 : m / 2 ^ 64 % 2 ^ 64 * 2 ^ 6 % 2 ^ 64 =
      2 ^ 6 * (m / 2 ^ 64 % 2 ^ 58) := by omega
  rw [h1, lor_disjoint _ (by omega)]
  have e1 : m / 2 ^ 64 = m / 2 ^ 58 / 2 ^ 6 := by
    rw [Nat.div_div_eq_div_mul]; norm_num
  have e2 : m % 2 ^ 64 / 2 ^ 58 = m / 2 ^ 58 % 2 ^ 6 := by
    omega
  rw [e1, e2]
  omega

theorem limb_combine' (P a : Nat) :
    (((P / 2 ^ (a + 64) % 2 ^ 64) <<< 6) % 2 ^ 64) ||| ((P / 2 ^ a % 2 ^ 64) >>> 58) =
      P / 2 ^ (a + 58) % 2 ^ 64 := by
  have h1 : P / 2 ^ (a + 64) = P / 2 ^ a / 2 ^ 64 := by
    rw [Nat.div_div_eq_div_mul, ← pow_add]
  have h2 : P / 2 ^ (a + 58) = P / 2 ^ a / 2 ^ 58 := by
    rw [Nat.div_div_eq_div_mul, ← pow_add]
  rw [h1, h2]
  exact limb_combine (P / 2 ^ a)

/-! ## Numeric facts about the constants L and R -/

theorem L_val_eq :
    L.val = 7237005577332262213973186563042994240857116359379907606001950938285454250989 := by
  norm_num [L, U256.val]

theorem R_val_eq :
    R.val = 28948022309329048855892746252171976963206526895300651595720988250814747816012 := by
  norm_num [R, U256.val]

theorem L_val_pos : 0 < L.val := by rw [L_val_eq]; norm_num

theorem L_val_lt : L.val < 2 ^ 253 := by rw [L_val_eq]; norm_num

theorem RL_le : R.val * L.val ≤ 2 ^ 506 := by rw [L_val_eq, R_val_eq]; norm_num

theorem RL_err : 2 ^ 506 < R.val * L.val + L.val := by
  rw [L_val_eq, R_val_eq]; norm_num

theorem q_bound_lt : (L.val - 1) ^ 2 * R.val / 2 ^ 506 < 2 ^ 256 := by
  rw [L_val_eq, R_val_eq]; norm_num

theorem cube_le : (L.val - 1) ^ 2 * (L.val - 1) ≤ 2 ^ 506 * L.val := by
  rw [L_val_eq]; norm_num

theorem sq_lt : (L.val - 1) ^ 2 < 2 ^ 512 := by rw [L_val_eq]; norm_num

/-! ## Reduction lemmas -/

theorem Scalar.raa_of_lt (s : Scalar) (h : s.value.val < L.val) :
    s.reduce_after_addition = s := by
  unfold Scalar.reduce_after_addition U256.sub_with_borrow
  simp [h]

theorem Scalar.raa_of_ge (s : Scalar) (h : L.val ≤ s.value.val) :
    s.reduce_after_addition = ⟨U256.sub s.value L⟩ := by
  unfold Scalar.reduce_after_addition U256.sub_with_borrow
  simp [Nat.not_lt.mpr h]

theorem U256.sub_L_ofVal (t : Nat) (h1 : L.val ≤ t) (h2 : t < 2 ^ 256) :
    U256.sub (U256.ofVal t) L = U256.ofVal (t - L.val) := by
  unfold U256.sub
  rw [U256.ofVal_val, L_val_eq]
  rw [L_val_eq] at h1
  exact congrArg U256.ofVal (by omega)

/-- The Barrett quotient estimate: with `q = x·R/2^506` the remainder `x − qL`
is nonnegative and below `2L`, for any product `x` of two scalars below L. -/
theorem barrett_estimate (Lv Rv x : Nat)
    (hRL : Rv * Lv ≤ 2 ^ 506)
    (hRLe : 2 ^ 506 < Rv * Lv + Lv)
    (hcube : (Lv - 1) ^ 2 * (Lv - 1) ≤ 2 ^ 506 * Lv)
    (hLpos : 0 < Lv)
    (hx : x ≤ (Lv - 1) ^ 2) :
    x * Rv / 2 ^ 506 * Lv ≤ x ∧ x < x * Rv / 2 ^ 506 * Lv + 2 * Lv := by
  constructor
  · have h1 : x * Rv / 2 ^ 506 * 2 ^ 506 ≤ x * Rv := Nat.div_mul_le_self _ _
    have h2 : x * Rv / 2 ^ 506 * Lv * 2 ^ 506 ≤ x * (Rv * Lv) := by
      calc x * Rv / 2 ^ 506 * Lv * 2 ^ 506
          = x * Rv / 2 ^ 506 * 2 ^ 506 * Lv := by ring
        _ ≤ x * Rv * Lv := Nat.mul_le_mul_right _ h1
        _ = x * (Rv * Lv) := by ring
    have h3 : x * (Rv * Lv) ≤ x * 2 ^ 506 := Nat.mul_le_mul_left _ hRL
    exact Nat.le_of_mul_le_mul_right (le_trans h2 h3) (by positivity)
  · have h5 : x * Rv < (x * Rv / 2 ^ 506 + 1) * 2 ^ 506 := by
      generalize x * Rv = y
      omega
    have e1 : x * 2 ^ 506 ≤ x * (Rv * Lv) + x * (Lv - 1) := by
      have h6 : 2 ^ 506 ≤ Rv * Lv + (Lv - 1) := by omega
      calc x * 2 ^ 506 ≤ x * (Rv * Lv + (Lv - 1)) := Nat.mul_le_mul_left _ h6
        _ = x * (Rv * Lv) + x * (Lv - 1) := by ring
    have e2 : x * (Lv - 1) ≤ 2 ^ 506 * Lv :=
      le_trans (Nat.mul_le_mul_right _ hx) hcube
    have e3 : x * (Rv * Lv) < (x * Rv / 2 ^ 506 + 1) * 2 ^ 506 * Lv := by
      calc x * (Rv * Lv) = x * Rv * Lv := by ring
        _ < (x * Rv / 2 ^ 506 + 1) * 2 ^ 506 * Lv :=
            (Nat.mul_lt_mul_right hLpos).mpr h5
    have key : x * 2 ^ 506 < (x * Rv / 2 ^ 506 * Lv + 2 * Lv) * 2 ^ 506 := by
      calc x * 2 ^ 506 ≤ x * (Rv * Lv) + x * (Lv - 1) := e1
        _ < (x * Rv / 2 ^ 506 + 1) * 2 ^ 506 * Lv + 2 ^ 506 * Lv :=
            Nat.add_lt_add_of_lt_of_le e3 e2
        _ = (x * Rv / 2 ^ 506 * Lv + 2 * Lv) * 2 ^ 506 := by ring
    exact Nat.lt_of_mul_lt_mul_right key

theorem barrett_q_lt (x : Nat) (hx : x ≤ (L.val - 1) ^ 2) :
    x * R.val / 2 ^ 506 < 2 ^ 256 :=
  lt_of_le_of_lt (Nat.div_le_div_right (Nat.mul_le_mul_right _ hx)) q_bound_lt

theorem U512.lo_ofVal (m : Nat) : (U512.ofVal m).lo = U256.ofVal m := rfl

/-- Zeta-reduced form of `Scalar.reduce_barret`. -/
theorem Scalar.reduce_barret_unfold (large : U512) :
    Scalar.reduce_barret large =
      Scalar.reduce_after_addition
        ⟨U256.sub large.lo
          (U256.mul
            ⟨(((U256.ofVal (large.val * R.val / 2 ^ 512)).l0 <<< 6) % 2 ^ 64) |||
                ((U512.ofVal (large.val * R.val)).l7 >>> 58),
             (((U256.ofVal (large.val * R.val / 2 ^ 512)).l1 <<< 6) % 2 ^ 64) |||
                ((U256.ofVal (large.val * R.val / 2 ^ 512)).l0 >>> 58),
             (((U256.ofVal (large.val * R.val / 2 ^ 512)).l2 <<< 6) % 2 ^ 64) |||
                ((U256.ofVal (large.val * R.val / 2 ^ 512)).l1 >>> 58),
             (((U256.ofVal (large.val * R.val / 2 ^ 512)).l3 <<< 6) % 2 ^ 64) |||
                ((U256.ofVal (large.val * R.val / 2 ^ 512)).l2 >>> 58)⟩
            L).lo⟩ := rfl

/-- The limb-assembled Barrett quotient estimate equals the canonical limb
decomposition of `P / 2^506`. -/
theorem barrett_q_eq (P : Nat) :
    (⟨(((U256.ofVal (P / 2 ^ 512)).l0 <<< 6) % 2 ^ 64) |||
          ((U512.ofVal P).l7 >>> 58),
      (((U256.ofVal (P / 2 ^ 512)).l1 <<< 6) % 2 ^ 64) |||
          ((U256.ofVal (P / 2 ^ 512)).l0 >>> 58),
      (((U256.ofVal (P / 2 ^ 512)).l2 <<< 6) % 2 ^ 64) |||
          ((U256.ofVal (P / 2 ^ 512)).l1 >>> 58),
      (((U256.ofVal (P / 2 ^ 512)).l3 <<< 6) % 2 ^ 64) |||
          ((U256.ofVal (P / 2 ^ 512)).l2 >>> 58)⟩ : U256)
      = U256.ofVal (P / 2 ^ 506) := by
  have e1 : (U256.ofVal (P / 2 ^ 512)).l1 = P / 2 ^ 576 % 2 ^ 64 := by
    show P / 2 ^ 512 / 2 ^ 64 % 2 ^ 64 = _
    rw [Nat.div_div_eq_div_mul]; norm_num
  have e2 : (U256.ofVal (P / 2 ^ 512)).l2 = P / 2 ^ 640 % 2 ^ 64 := by
    show P / 2 ^ 512 / 2 ^ 128 % 2 ^ 64 = _
    rw [Nat.div_div_eq_div_mul]; norm_num
  have e3 : (U256.ofVal (P / 2 ^ 512)).l3 = P / 2 ^ 704 % 2 ^ 64 := by
    show P / 2 ^ 512 / 2 ^ 192 % 2 ^ 64 = _
    rw [Nat.div_div_eq_div_mul]; norm_num
  have c0 : (((P / 2 ^ 512 % 2 ^ 64) <<< 6) % 2 ^ 64) |||
      ((P / 2 ^ 448 % 2 ^ 64) >>> 58) = P / 2 ^ 506 % 2 ^ 64 := by
    have h1 : P / 2 ^ 512 = P / 2 ^ 448 / 2 ^ 64 := by rw [Nat.div_div_eq_div_mul]; norm_num
    have h2 : P / 2 ^ 506 = P / 2 ^ 448 / 2 ^ 58 := by rw [Nat.div_div_eq_div_mul]; norm_num
    rw [h1, h2]; exact limb_combine (P / 2 ^ 448)
  have c1 : (((P / 2 ^ 576 % 2 ^ 64) <<< 6) % 2 ^ 64) |||
      ((P / 2 ^ 512 % 2 ^ 64) >>> 58) = P / 2 ^ 570 % 2 ^ 64 := by
    have h1 : P / 2 ^ 576 = P / 2 ^ 512 / 2 ^ 64 := by rw [Nat.div_div_eq_div_mul]; norm_num
    have h2 : P / 2 ^ 570 = P / 2 ^ 512 / 2 ^ 58 := by rw [Nat.div_div_eq_div_mul]; norm_num
    rw [h1, h2]; exact limb_combine (P / 2 ^ 512)
  have c2 : (((P / 2 ^ 640 % 2 ^ 64) <<< 6) % 2 ^ 64) |||
      ((P / 2 ^ 576 % 2 ^ 64) >>> 58) = P / 2 ^ 634 % 2 ^ 64 := by
    have h1 : P / 2 ^ 640 = P / 2 ^ 576 / 2 ^ 64 := by rw [Nat.div_div_eq_div_mul]; norm_num
    have h2 : P / 2 ^ 634 = P / 2 ^ 576 / 2 ^ 58 := by rw [Nat.div_div_eq_div_mul]; norm_num
    rw [h1, h2]; exact limb_combine (P / 2 ^ 576)
  have c3 : (((P / 2 ^ 704 % 2 ^ 64) <<< 6) % 2 ^ 64) |||
      ((P / 2 ^ 640 % 2 ^ 64) >>> 58) = P / 2 ^ 698 % 2 ^ 64 := by
    have h1 : P / 2 ^ 704 = P / 2 ^ 640 / 2 ^ 64 := by rw [Nat.div_div_eq_div_mul]; norm_num
    have h2 : P / 2 ^ 698 = P / 2 ^ 640 / 2 ^ 58 := by rw [Nat.div_div_eq_div_mul]; norm_num
    rw [h1, h2]; exact limb_combine (P / 2 ^ 640)
  have t1 : (U256.ofVal (P / 2 ^ 506)).l1 = P / 2 ^ 570 % 2 ^ 64 := by
    show P / 2 ^ 506 / 2 ^ 64 % 2 ^ 64 = _
    rw [Nat.div_div_eq_div_mul]; norm_num
  have t2 : (U256.ofVal (P / 2 ^ 506)).l2 = P / 2 ^ 634 % 2 ^ 64 := by
    show P / 2 ^ 506 / 2 ^ 128 % 2 ^ 64 = _
    rw [Nat.div_div_eq_div_mul]; norm_num
  have t3 : (U256.ofVal (P / 2 ^ 506)).l3 = P / 2 ^ 698 % 2 ^ 64 := by
    show P / 2 ^ 506 / 2 ^ 192 % 2 ^ 64 = _
    rw [Nat.div_div_eq_div_mul]; norm_num
  have e0 : (U256.ofVal (P / 2 ^ 512)).l0 = P / 2 ^ 512 % 2 ^ 64 := rfl
  have f0 : (U512.ofVal P).l7 = P / 2 ^ 448 % 2 ^ 64 := rfl
  have t0 : (U256.ofVal (P / 2 ^ 506)).l0 = P / 2 ^ 506 % 2 ^ 64 := rfl
  calc (⟨(((U256.ofVal (P / 2 ^ 512)).l0 <<< 6) % 2 ^ 64) |||
          ((U512.ofVal P).l7 >>> 58),
        (((U256.ofVal (P / 2 ^ 512)).l1 <<< 6) % 2 ^ 64) |||
          ((U256.ofVal (P / 2 ^ 512)).l0 >>> 58),
        (((U256.ofVal (P / 2 ^ 512)).l2 <<< 6) % 2 ^ 64) |||
          ((U256.ofVal (P / 2 ^ 512)).l1 >>> 58),
        (((U256.ofVal (P / 2 ^ 512)).l3 <<< 6) % 2 ^ 64) |||
          ((U256.ofVal (P / 2 ^ 512)).l2 >>> 58)⟩ : U256)
      = (⟨P / 2 ^ 506 % 2 ^ 64, P / 2 ^ 570 % 2 ^ 64, P / 2 ^ 634 % 2 ^ 64,
          P / 2 ^ 698 % 2 ^ 64⟩ : U256) := by
        rw [e0, e1, e2, e3, f0, c0, c1, c2, c3]
    _ = U256.ofVal (P / 2 ^ 506) := by
        rw [U256.mk.injEq]
        exact ⟨t0.symm, t1.symm, t2.symm, t3.symm⟩

/-- Barrett reduction of a canonical 512-limb value below (L−1)² computes the
residue modulo L in canonical limb form. -/
theorem Scalar.reduce_barret_eq (n : Nat) (hn : n ≤ (L.val - 1) ^ 2) :
    Scalar.reduce_barret (U512.ofVal n) = ⟨U256.ofVal (n % L.val)⟩ := by
  have hn512 : n < 2 ^ 512 := lt_of_le_of_lt hn sq_lt
  have hval : (U512.ofVal n).val = n := by
    rw [U512.ofVal_val512]; exact Nat.mod_eq_of_lt hn512
  have hlo : (U512.ofVal n).lo = U256.ofVal n := rfl
  rw [Scalar.reduce_barret_unfold, hval, hlo, barrett_q_eq]
  have hq256 : n * R.val / 2 ^ 506 < 2 ^ 256 := barrett_q_lt n hn
  have hqval : (U256.ofVal (n * R.val / 2 ^ 506)).val = n * R.val / 2 ^ 506 := by
    rw [U256.ofVal_val]; exact Nat.mod_eq_of_lt hq256
  have hmul_lo : (U256.mul (U256.ofVal (n * R.val / 2 ^ 506)) L).lo
      = U256.ofVal (n * R.val / 2 ^ 506 * L.val) := by
    unfold U256.mul
    rw [hqval, U512.lo_ofVal]
  rw [hmul_lo]
  obtain ⟨hle, hlt2⟩ :=
    barrett_estimate L.val R.val n RL_le RL_err cube_le L_val_pos hn
  have hL253 := L_val_lt
  have hsub : U256.sub (U256.ofVal n) (U256.ofVal (n * R.val / 2 ^ 506 * L.val))
      = U256.ofVal (n - n * R.val / 2 ^ 506 * L.val) := by
    unfold U256.sub
    rw [U256.ofVal_val, U256.ofVal_val]
    apply congrArg
    generalize hg : n * R.val / 2 ^ 506 * L.val = s at hle hlt2
    omega
  rw [hsub]
  have hmod : n % L.val = (n - n * R.val / 2 ^ 506 * L.val) % L.val := by
    conv_lhs =>
      rw [show n = n * R.val / 2 ^ 506 * L.val +
        (n - n * R.val / 2 ^ 506 * L.val) by omega]
    rw [Nat.add_comm, Nat.add_mul_mod_self_right]
  have htlt : n - n * R.val / 2 ^ 506 * L.val < 2 ^ 256 := by
    generalize hg : n * R.val / 2 ^ 506 * L.val = s at hle hlt2
    omega
  by_cases hcase : n - n * R.val / 2 ^ 506 * L.val < L.val
  · rw [Scalar.raa_of_lt]
    · apply congrArg (fun v => Scalar.mk (U256.ofVal v))
      rw [hmod]
      exact (Nat.mod_eq_of_lt hcase).symm
    · show (U256.ofVal (n - n * R.val / 2 ^ 506 * L.val)).val < L.val
      rw [U256.ofVal_val, Nat.mod_eq_of_lt htlt]
      exact hcase
  · have hge : L.val ≤ n - n * R.val / 2 ^ 506 * L.val := Nat.le_of_not_lt hcase
    rw [Scalar.raa_of_ge]
    · show Scalar.mk (U256.sub (U256.ofVal (n - n * R.val / 2 ^ 506 * L.val)) L) = _
      rw [U256.sub_L_ofVal _ hge htlt]
      apply congrArg (fun v => Scalar.mk (U256.ofVal v))
      rw [hmod]
      conv_rhs =>
        rw [show n - n * R.val / 2 ^ 506 * L.val =
          L.val + (n - n * R.val / 2 ^ 506 * L.val - L.val) by omega]
      rw [Nat.add_mod_left]
      refine (Nat.mod_eq_of_lt ?_).symm
      generalize hg : n * R.val / 2 ^ 506 * L.val = s at hle hlt2 hge
      omega
    · show L.val ≤ (U256.ofVal (n - n * R.val / 2 ^ 506 * L.val)).val
      rw [U256.ofVal_val, Nat.mod_eq_of_lt htlt]
      exact hge

theorem U256.ofVal_val_small (n : Nat) (h : n < 2 ^ 256) :
    (U256.ofVal n).val = n := by
  rw [U256.ofVal_val]
  exact Nat.mod_eq_of_lt h

theorem mod_L_lt (x : Nat) : x % L.val < 2 ^ 256 :=
  lt_of_lt_of_le (Nat.mod_lt _ L_val_pos) (le_trans (le_of_lt L_val_lt) (by norm_num))

/-- Scalar addition on reduced values is addition modulo L, in canonical limb
form. -/
theorem Scalar.add_eq (a b : Scalar) (ha : a.value.val < L.val)
    (hb : b.value.val < L.val) :
    Scalar.add a b = ⟨U256.ofVal ((a.value.val + b.value.val) % L.val)⟩ := by
  have hL := L_val_lt
  have hsum : a.value.val + b.value.val < 2 ^ 256 := by omega
  have h1 : U256.add a.value b.value = U256.ofVal (a.value.val + b.value.val) := by
    unfold U256.add
    rw [Nat.mod_eq_of_lt hsum]
  unfold Scalar.add
  rw [h1]
  by_cases hcase : a.value.val + b.value.val < L.val
  · rw [Scalar.raa_of_lt]
    · exact congrArg (fun v => Scalar.mk (U256.ofVal v))
        (Nat.mod_eq_of_lt hcase).symm
    · show (U256.ofVal (a.value.val + b.value.val)).val < L.val
      rw [U256.ofVal_val_small _ hsum]
      exact hcase
  · have hge := Nat.le_of_not_lt hcase
    rw [Scalar.raa_of_ge]
    · show Scalar.mk (U256.sub (U256.ofVal (a.value.val + b.value.val)) L) = _
      rw [U256.sub_L_ofVal _ hge hsum]
      apply congrArg (fun v => Scalar.mk (U256.ofVal v))
      conv_rhs =>
        rw [show a.value.val + b.value.val =
          L.val + (a.value.val + b.value.val - L.val) by omega]
      rw [Nat.add_mod_left]
      exact (Nat.mod_eq_of_lt (by omega)).symm
    · show L.val ≤ (U256.ofVal (a.value.val + b.value.val)).val
      rw [U256.ofVal_val_small _ hsum]
      exact hge

/-- Scalar multiplication on reduced values is multiplication modulo L, in
canonical limb form. -/
theorem Scalar.mul_eq (a b : Scalar) (ha : a.value.val < L.val)
    (hb : b.value.val < L.val) :
    Scalar.mul a b = ⟨U256.ofVal (a.value.val * b.value.val % L.val)⟩ := by
  unfold Scalar.mul U256.mul
  have h1 : a.value.val ≤ L.val - 1 := by omega
  have h2 : b.value.val ≤ L.val - 1 := by omega
  have hx : a.value.val * b.value.val ≤ (L.val - 1) ^ 2 := by
    calc a.value.val * b.value.val
        ≤ (L.val - 1) * (L.val - 1) := Nat.mul_le_mul h1 h2
      _ = (L.val - 1) ^ 2 := (sq (L.val - 1)).symm
  exact Scalar.reduce_barret_eq _ hx

theorem Scalar.add_val (a b : Scalar) (ha : a.value.val < L.val)
    (hb : b.value.val < L.val) :
    (Scalar.add a b).value.val = (a.value.val + b.value.val) % L.val := by
  rw [Scalar.add_eq a b ha hb]
  exact U256.ofVal_val_small _ (mod_L_lt _)

theorem Scalar.mul_val (a b : Scalar) (ha : a.value.val < L.val)
    (hb : b.value.val < L.val) :
    (Scalar.mul a b).value.val = a.value.val * b.value.val % L.val := by
  rw [Scalar.mul_eq a b ha hb]
  exact U256.ofVal_val_small _ (mod_L_lt _)

/-! ## Little-endian byte values and the clamping function -/

theorem leVal_nil : leVal [] = 0 := rfl

theorem leVal_cons (x : Nat) (l : List Nat) :
    leVal (x :: l) = x + 256 * leVal l := rfl

theorem leVal_append (xs ys : List Nat) :
    leVal (xs ++ ys) = leVal xs + 256 ^ xs.length * leVal ys := by
  induction xs with
  | nil => simp [leVal_nil]
  | cons a t ih =>
      rw [List.cons_append, leVal_cons, leVal_cons, ih, List.length_cons]
      ring

theorem leVal_single (x : Nat) : leVal [x] = x := by
  rw [leVal_cons, leVal_nil]
  omega

theorem leVal_lt (bs : List Nat) (h : bytesWF bs) :
    leVal bs < 256 ^ bs.length := by
  induction bs with
  | nil => simp [leVal_nil]
  | cons a t ih =>
      have ha : a < 256 := h a (List.mem_cons_self a t)
      have ht : leVal t < 256 ^ t.length :=
        ih (fun b hb => h b (List.mem_cons_of_mem a hb))
      rw [leVal_cons, List.length_cons, pow_succ, Nat.mul_comm (256 ^ t.length) 256]
      have hexp : 0 < 256 ^ t.length := Nat.pos_pow_of_pos _ (by norm_num)
      omega

theorem getD_snoc_len (l : List Nat) (x : Nat) :
    (l ++ [x]).getD l.length 0 = x := by
  induction l with
  | nil => rfl
  | cons a t ih => simpa using ih

theorem set_snoc_len (l : List Nat) (x v : Nat) :
    (l ++ [x]).set l.length v = l ++ [v] := by
  induction l with
  | nil => rfl
  | cons a t ih => simpa using ih

theorem length_succ_decomp (l : List Nat) (n : Nat) (h : l.length = n + 1) :
    ∃ x t, l = x :: t ∧ t.length = n := by
  cases l with
  | nil => simp at h
  | cons x t => exact ⟨x, t, rfl, by simpa using h⟩

/-- The value of the four 8-byte chunk limbs of a 32-byte string is its full
little-endian value. -/
theorem val_four_chunks (bs : List Nat) (h : bs.length = 32) :
    (U256.mk (leVal ((bs.drop 0).take 8)) (leVal ((bs.drop 8).take 8))
      (leVal ((bs.drop 16).take 8)) (leVal ((bs.drop 24).take 8))).val
      = leVal bs := by
  have split : ∀ (l : List Nat) (n : Nat), n ≤ l.length →
      leVal l = leVal (l.take n) + 256 ^ n * leVal (l.drop n) := by
    intro l n hn
    conv_lhs => rw [← List.take_append_drop n l]
    rw [leVal_append, List.length_take, Nat.min_eq_left hn]
  have d8 : (bs.drop 8).drop 8 = bs.drop 16 := by
    rw [List.drop_drop]
  have d16 : (bs.drop 16).drop 8 = bs.drop 24 := by
    rw [List.drop_drop]
  have l8 : (bs.drop 8).length = 24 := by rw [List.length_drop, h]
  have l16 : (bs.drop 16).length = 16 := by rw [List.length_drop, h]
  have l24 : (bs.drop 24).length = 8 := by rw [List.length_drop, h]
  have t24 : (bs.drop 24).take 8 = bs.drop 24 := by
    rw [List.take_of_length_le (le_of_eq l24)]
  have s0 := split bs 8 (by omega)
  have s8 := split (bs.drop 8) 8 (by omega)
  have s16 := split (bs.drop 16) 8 (by omega)
  rw [List.drop_zero] at *
  unfold U256.val
  simp only
  rw [s0, s8, d8, s16, d16, t24]
  norm_num
  ring

/-- Zeta-reduced form of `Scalar.clamped`, for a given result of the two byte
updates. -/
theorem Scalar.clamped_eq_of (bytes bytes2 : List Nat)
    (h : (bytes.set 0 (bytes.getD 0 0 &&& 248)).set 31
          (((bytes.set 0 (bytes.getD 0 0 &&& 248)).getD 31 0 &&& 127) ||| 64)
        = bytes2) :
    Scalar.clamped bytes =
      ⟨⟨leVal ((bytes2.drop 0).take 8), leVal ((bytes2.drop 8).take 8),
        leVal ((bytes2.drop 16).take 8), leVal ((bytes2.drop 24).take 8)⟩⟩ := by
  subst h
  rfl

/-- The exact value produced by clamping: bits 0–2 cleared, bit 254 set,
bit 255 cleared, all other bits taken from the little-endian input value. -/
theorem Scalar.clamped_val (bytes : List Nat) (hlen : bytes.length = 32)
    (hwf : bytesWF bytes) :
    (Scalar.clamped bytes).value.val
      = 2 ^ 254 + (leVal bytes % 2 ^ 254 - leVal bytes % 8) := by
  obtain ⟨b0, rest, rfl, hrest⟩ := length_succ_decomp bytes 31 hlen
  have hne : rest ≠ [] := by
    intro he; rw [he] at hrest; exact absurd hrest (by norm_num)
  obtain ⟨mid, b31, rfl, hmid⟩ :
      ∃ mid b31, rest = mid ++ [b31] ∧ mid.length = 30 := by
    refine ⟨rest.dropLast, rest.getLast hne,
      (List.dropLast_append_getLast hne).symm, ?_⟩
    rw [List.length_dropLast, hrest]
  have hgetD : ((b0 &&& 248) :: (mid ++ [b31])).getD 31 0 = b31 := by
    show (mid ++ [b31]).getD 30 0 = b31
    rw [← hmid]
    exact getD_snoc_len mid b31
  have hset : ((b0 &&& 248) :: (mid ++ [b31])).set 31 ((b31 &&& 127) ||| 64)
      = (b0 &&& 248) :: (mid ++ [(b31 &&& 127) ||| 64]) := by
    show (b0 &&& 248) :: ((mid ++ [b31]).set 30 ((b31 &&& 127) ||| 64)) = _
    rw [show (30 : Nat) = mid.length from hmid.symm, set_snoc_len]
  have hchain : ((b0 :: (mid ++ [b31])).set 0
        ((b0 :: (mid ++ [b31])).getD 0 0 &&& 248)).set 31
        ((((b0 :: (mid ++ [b31])).set 0
          ((b0 :: (mid ++ [b31])).getD 0 0 &&& 248)).getD 31 0 &&& 127) ||| 64)
      = (b0 &&& 248) :: (mid ++ [(b31 &&& 127) ||| 64]) := by
    show ((b0 &&& 248) :: (mid ++ [b31])).set 31
        ((((b0 &&& 248) :: (mid ++ [b31])).getD 31 0 &&& 127) ||| 64) = _
    rw [hgetD, hset]
  rw [Scalar.clamped_eq_of _ _ hchain]
  have hlen2 : ((b0 &&& 248) :: (mid ++ [(b31 &&& 127) ||| 64])).length = 32 := by
    simp [hmid]
  have hv := val_four_chunks _ hlen2
  rw [show (⟨⟨leVal (((((b0 &&& 248) :: (mid ++ [(b31 &&& 127) ||| 64]))).drop 0).take 8),
      leVal ((((b0 &&& 248) :: (mid ++ [(b31 &&& 127) ||| 64])).drop 8).take 8),
      leVal ((((b0 &&& 248) :: (mid ++ [(b31 &&& 127) ||| 64])).drop 16).take 8),
      leVal ((((b0 &&& 248) :: (mid ++ [(b31 &&& 127) ||| 64])).drop 24).take 8)⟩⟩ :
      Scalar).value.val = leVal ((b0 &&& 248) :: (mid ++ [(b31 &&& 127) ||| 64]))
    from hv]
  have hb0 : b0 < 256 := hwf b0 (by simp)
  have hb31 : b31 < 256 := hwf b31 (by simp)
  have hmidwf : bytesWF mid := by
    intro b hb
    exact hwf b (by simp [hb])
  have hm : leVal mid < 256 ^ 30 := by
    have := leVal_lt mid hmidwf
    rwa [hmid] at this
  have hand : b0 &&& 248 = b0 - b0 % 8 := by
    have hgen : ∀ x, x < 256 → x &&& 248 = x - x % 8 := by decide
    exact hgen b0 hb0
  have hor : (b31 &&& 127) ||| 64 = b31 % 64 + 64 := by
    have hgen : ∀ x, x < 256 → (x &&& 127) ||| 64 = x % 64 + 64 := by decide
    exact hgen b31 hb31
  rw [leVal_cons, leVal_cons, leVal_append, leVal_append, leVal_single,
    leVal_single, hmid, hand, hor]
  have h256 : (256 : Nat) ^ 30 = 2 ^ 240 := by norm_num
  rw [h256]
  omega

/-- Bit-level reading of the clamped value identity. -/
theorem clamped_testBit_aux (v w : Nat)
    (hw : w = 2 ^ 254 + (v % 2 ^ 254 - v % 8)) :
    w % 8 = 0 ∧ w.testBit 254 = true ∧ w.testBit 255 = false ∧
    ∀ i, 3 ≤ i → i < 254 → w.testBit i = v.testBit i := by
  have hx8 : v % 2 ^ 254 % 8 = v % 8 := by omega
  have hxlt : v % 2 ^ 254 - v % 8 < 2 ^ 254 := by omega
  have hx2 : v % 2 ^ 254 - v % 8 = 2 ^ 3 * (v % 2 ^ 254 / 8) := by omega
  have hsplit : w = 2 ^ 254 * 1 + (v % 2 ^ 254 - v % 8) := by omega
  refine ⟨by omega, ?_, ?_, ?_⟩
  · rw [hsplit, Nat.testBit_mul_pow_two_add 1 hxlt 254]
    norm_num
  · rw [hsplit, Nat.testBit_mul_pow_two_add 1 hxlt 255]
    norm_num
    decide
  · intro i h3 h254
    rw [hsplit, Nat.testBit_mul_pow_two_add 1 hxlt i, if_pos h254, hx2,
      Nat.testBit_mul_pow_two]
    have e1 : v % 2 ^ 254 / 8 = v / 2 ^ 3 % 2 ^ 251 := by omega
    have e2 : v / 2 ^ 3 = v >>> 3 := (Nat.shiftRight_eq_div_pow v 3).symm
    rw [e1, e2, Nat.testBit_mod_two_pow, Nat.testBit_shiftRight]
    have hge : i ≥ 3 := h3
    have hlt251 : i - 3 < 251 := by omega
    have hi : 3 + (i - 3) = i := by omega
    rw [hi]
    simp [hge, hlt251]

/-! ## Claim theorems -/

/-- C1: for Scalars a and b with values in [0, L), multiplication computes the
full 512-bit product, estimates the Barrett quotient via the precomputed
constant R and the fixed shift, subtracts q·L and applies at most one more
conditional subtraction, and the result equals (a·b) mod L and lies in
[0, L). -/
theorem claim_C1_mul_barrett (a b : Scalar) (ha : a.value.val < L.val)
    (hb : b.value.val < L.val) :
    (Scalar.mul a b).value.val = a.value.val * b.value.val % L.val ∧
    (Scalar.mul a b).value.val < L.val := by
  refine ⟨Scalar.mul_val a b ha hb, ?_⟩
  rw [Scalar.mul_val a b ha hb]
  exact Nat.mod_lt _ L_val_pos

theorem claim_C1_witness :
    (Scalar.ofU64 3).value.val < L.val ∧ (Scalar.ofU64 5).value.val < L.val ∧
    (Scalar.mul (Scalar.ofU64 3) (Scalar.ofU64 5)).value.val =
      (Scalar.ofU64 3).value.val * (Scalar.ofU64 5).value.val % L.val ∧
    (Scalar.mul (Scalar.ofU64 3) (Scalar.ofU64 5)).value.val < L.val :=
  ⟨by decide, by decide,
   (claim_C1_mul_barrett (Scalar.ofU64 3) (Scalar.ofU64 5) (by decide) (by decide)).1,
   (claim_C1_mul_barrett (Scalar.ofU64 3) (Scalar.ofU64 5) (by decide) (by decide)).2⟩

/-- C5: for Scalars a and b with values in [0, L), addition performs 256-bit
addition followed by the single conditional subtraction of L, and the result
equals (a+b) mod L and lies in [0, L). -/
theorem claim_C5_add (a b : Scalar) (ha : a.value.val < L.val)
    (hb : b.value.val < L.val) :
    (Scalar.add a b).value.val = (a.value.val + b.value.val) % L.val ∧
    (Scalar.add a b).value.val < L.val := by
  refine ⟨Scalar.add_val a b ha hb, ?_⟩
  rw [Scalar.add_val a b ha hb]
  exact Nat.mod_lt _ L_val_pos

theorem claim_C5_witness :
    (Scalar.ofU64 20).value.val < L.val ∧ (Scalar.ofU64 22).value.val < L.val ∧
    (Scalar.add (Scalar.ofU64 20) (Scalar.ofU64 22)).value.val =
      ((Scalar.ofU64 20).value.val + (Scalar.ofU64 22).value.val) % L.val ∧
    (Scalar.add (Scalar.ofU64 20) (Scalar.ofU64 22)).value.val < L.val :=
  ⟨by decide, by decide,
   (claim_C5_add (Scalar.ofU64 20) (Scalar.ofU64 22) (by decide) (by decide)).1,
   (claim_C5_add (Scalar.ofU64 20) (Scalar.ofU64 22) (by decide) (by decide)).2⟩

/-- C8: reduce_after_addition is the identity on Scalars whose value already
lies in [0, L). -/
theorem claim_C8_raa_identity (s : Scalar) (h : s.value.val < L.val) :
    s.reduce_after_addition = s :=
  Scalar.raa_of_lt s h

theorem claim_C8_witness :
    (Scalar.ofU64 7).value.val < L.val ∧
    (Scalar.ofU64 7).reduce_after_addition = Scalar.ofU64 7 :=
  ⟨by decide, claim_C8_raa_identity (Scalar.ofU64 7) (by decide)⟩

/-- C6 counterexample: `clamped` is a public Scalar-producing operation, yet
on the all-zero 32-byte input it yields a value not below L (it is 2^254). -/
theorem claim_C6_counterexample :
    ¬ (Scalar.clamped (List.replicate 32 0)).value.val < L.val := by decide

/-- C6 amended: every public Scalar-producing operation except `clamped`
yields a value in [0, L) (addition and multiplication on reduced inputs, and
conversion from a 64-bit value); `clamped` instead always yields a value in
[2^254, 2^255), which is never below L. -/
theorem claim_C6_invariant_amended :
    (∀ a b : Scalar, a.value.val < L.val → b.value.val < L.val →
      (Scalar.add a b).value.val < L.val ∧ (Scalar.mul a b).value.val < L.val) ∧
    (∀ x : Nat, (Scalar.ofU64 x).value.val < L.val) ∧
    (∀ bytes : List Nat, bytes.length = 32 → bytesWF bytes →
      2 ^ 254 ≤ (Scalar.clamped bytes).value.val ∧
      (Scalar.clamped bytes).value.val < 2 ^ 255) := by
  refine ⟨fun a b ha hb =>
      ⟨by rw [Scalar.add_val a b ha hb]; exact Nat.mod_lt _ L_val_pos,
       by rw [Scalar.mul_val a b ha hb]; exact Nat.mod_lt _ L_val_pos⟩,
    fun x => ?_, fun bytes hlen hwf => ?_⟩
  · have hx : (Scalar.ofU64 x).value.val = x % 2 ^ 64 := by
      show (U256.ofVal (x % 2 ^ 64)).val = x % 2 ^ 64
      exact U256.ofVal_val_small _ (by omega)
    have h64 : (2 : Nat) ^ 64 < L.val := by rw [L_val_eq]; norm_num
    omega
  · have h := Scalar.clamped_val bytes hlen hwf
    omega

theorem claim_C6_witness :
    ((Scalar.add (Scalar.ofU64 1) (Scalar.ofU64 2)).value.val < L.val ∧
      (Scalar.mul (Scalar.ofU64 1) (Scalar.ofU64 2)).value.val < L.val) ∧
    (Scalar.ofU64 5).value.val < L.val ∧
    (2 ^ 254 ≤ (Scalar.clamped (List.replicate 32 0)).value.val ∧
      (Scalar.clamped (List.replicate 32 0)).value.val < 2 ^ 255) :=
  ⟨claim_C6_invariant_amended.1 (Scalar.ofU64 1) (Scalar.ofU64 2) (by decide) (by decide),
   claim_C6_invariant_amended.2.1 5,
   claim_C6_invariant_amended.2.2 (List.replicate 32 0) (by decide) (by decide)⟩

/-- C7: clamping is a function of the 32 input bytes whose result has bits
0, 1, 2 of byte 0 clear, bit 7 of byte 31 clear, bit 6 of byte 31 set, all
remaining bits taken unchanged from the little-endian input value, with no
modular reduction: the value is exactly 2^254 plus the input value with bits
254, 255 and 0–2 cleared. -/
theorem claim_C7_clamped_bits (bytes : List Nat) (hlen : bytes.length = 32)
    (hwf : bytesWF bytes) :
    (Scalar.clamped bytes).value.val % 8 = 0 ∧
    ((Scalar.clamped bytes).value.val).testBit 254 = true ∧
    ((Scalar.clamped bytes).value.val).testBit 255 = false ∧
    (∀ i, 3 ≤ i → i < 254 →
      ((Scalar.clamped bytes).value.val).testBit i = (leVal bytes).testBit i) ∧
    (Scalar.clamped bytes).value.val
      = 2 ^ 254 + (leVal bytes % 2 ^ 254 - leVal bytes % 8) := by
  have h := Scalar.clamped_val bytes hlen hwf
  obtain ⟨h1, h2, h3, h4⟩ := clamped_testBit_aux (leVal bytes) _ h
  exact ⟨h1, h2, h3, h4, h⟩

theorem claim_C7_witness :
    (List.replicate 32 17).length = 32 ∧ bytesWF (List.replicate 32 17) ∧
    ((Scalar.clamped (List.replicate 32 17)).value.val % 8 = 0 ∧
     ((Scalar.clamped (List.replicate 32 17)).value.val).testBit 254 = true ∧
     ((Scalar.clamped (List.replicate 32 17)).value.val).testBit 255 = false ∧
     (∀ i, 3 ≤ i → i < 254 →
       ((Scalar.clamped (List.replicate 32 17)).value.val).testBit i
         = (leVal (List.replicate 32 17)).testBit i) ∧
     (Scalar.clamped (List.replicate 32 17)).value.val
       = 2 ^ 254 + (leVal (List.replicate 32 17) % 2 ^ 254
           - leVal (List.replicate 32 17) % 8)) :=
  ⟨by decide, by decide,
   claim_C7_clamped_bits (List.replicate 32 17) (by decide) (by decide)⟩

/-! ## Ring laws -/

theorem Scalar.mk_ofVal_congr {m n : Nat} (h : m = n) :
    (⟨U256.ofVal m⟩ : Scalar) = ⟨U256.ofVal n⟩ := by rw [h]

theorem Scalar.val_mk_ofVal (m : Nat) (h : m < 2 ^ 256) :
    (⟨U256.ofVal m⟩ : Scalar).value.val = m :=
  U256.ofVal_val_small m h

theorem mod_L_lt_L (x : Nat) : x % L.val < L.val := Nat.mod_lt _ L_val_pos

theorem Scalar.eq_mk_ofVal_self (a : Scalar) (h : a.Reduced) :
    (⟨U256.ofVal a.value.val⟩ : Scalar) = a := by
  cases a with
  | mk v => exact congrArg Scalar.mk h.1.symm

theorem mul_mod_right_L (x y n : Nat) : x * (y % n) % n = x * y % n := by
  rw [Nat.mul_mod, Nat.mod_mod_of_dvd y (dvd_refl n), ← Nat.mul_mod]

/-- C9: Scalar addition and multiplication satisfy the commutative-ring laws
on reduced scalars, with 0 = Scalar::from(0) and 1 = Scalar::from(1). -/
theorem claim_C9_ring_laws (a b c : Scalar) (ha : a.Reduced) (hb : b.Reduced)
    (hc : c.Reduced) :
    Scalar.add a b = Scalar.add b a ∧
    Scalar.add (Scalar.add a b) c = Scalar.add a (Scalar.add b c) ∧
    Scalar.add a (Scalar.ofU64 0) = a ∧
    Scalar.mul a b = Scalar.mul b a ∧
    Scalar.mul (Scalar.mul a b) c = Scalar.mul a (Scalar.mul b c) ∧
    Scalar.mul a (Scalar.add b c) = Scalar.add (Scalar.mul a b) (Scalar.mul a c) ∧
    Scalar.mul a (Scalar.ofU64 1) = a := by
  obtain ⟨ha1, ha2⟩ := ha
  obtain ⟨hb1, hb2⟩ := hb
  obtain ⟨hc1, hc2⟩ := hc
  have h0L : (Scalar.ofU64 0).value.val < L.val := by decide
  have h1L : (Scalar.ofU64 1).value.val < L.val := by decide
  have h0v : (Scalar.ofU64 0).value.val = 0 := by decide
  have h1v : (Scalar.ofU64 1).value.val = 1 := by decide
  refine ⟨?_, ?_, ?_, ?_, ?_, ?_, ?_⟩
  · rw [Scalar.add_eq a b ha2 hb2, Scalar.add_eq b a hb2 ha2]
    exact Scalar.mk_ofVal_congr (by rw [Nat.add_comm])
  · rw [Scalar.add_eq a b ha2 hb2,
      Scalar.add_eq _ c (by rw [Scalar.val_mk_ofVal _ (mod_L_lt _)]; exact mod_L_lt_L _) hc2,
      Scalar.val_mk_ofVal _ (mod_L_lt _),
      Scalar.add_eq b c hb2 hc2,
      Scalar.add_eq a _ ha2 (by rw [Scalar.val_mk_ofVal _ (mod_L_lt _)]; exact mod_L_lt_L _),
      Scalar.val_mk_ofVal _ (mod_L_lt _)]
    exact Scalar.mk_ofVal_congr
      (by rw [Nat.mod_add_mod, Nat.add_mod_mod, Nat.add_assoc])
  · rw [Scalar.add_eq a (Scalar.ofU64 0) ha2 h0L, h0v]
    have : (a.value.val + 0) % L.val = a.value.val := by
      rw [Nat.add_zero]
      exact Nat.mod_eq_of_lt ha2
    rw [this]
    exact Scalar.eq_mk_ofVal_self a ⟨ha1, ha2⟩
  · rw [Scalar.mul_eq a b ha2 hb2, Scalar.mul_eq b a hb2 ha2]
    exact Scalar.mk_ofVal_congr (by rw [Nat.mul_comm])
  · rw [Scalar.mul_eq a b ha2 hb2,
      Scalar.mul_eq _ c (by rw [Scalar.val_mk_ofVal _ (mod_L_lt _)]; exact mod_L_lt_L _) hc2,
      Scalar.val_mk_ofVal _ (mod_L_lt _),
      Scalar.mul_eq b c hb2 hc2,
      Scalar.mul_eq a _ ha2 (by rw [Scalar.val_mk_ofVal _ (mod_L_lt _)]; exact mod_L_lt_L _),
      Scalar.val_mk_ofVal _ (mod_L_lt _)]
    exact Scalar.mk_ofVal_congr
      (by rw [Nat.mod_mul_mod, mul_mod_right_L, Nat.mul_assoc])
  · rw [Scalar.add_eq b c hb2 hc2,
      Scalar.mul_eq a _ ha2 (by rw [Scalar.val_mk_ofVal _ (mod_L_lt _)]; exact mod_L_lt_L _),
      Scalar.val_mk_ofVal _ (mod_L_lt _),
      Scalar.mul_eq a b ha2 hb2, Scalar.mul_eq a c ha2 hc2,
      Scalar.add_eq _ _ (by rw [Scalar.val_mk_ofVal _ (mod_L_lt _)]; exact mod_L_lt_L _)
        (by rw [Scalar.val_mk_ofVal _ (mod_L_lt _)]; exact mod_L_lt_L _),
      Scalar.val_mk_ofVal _ (mod_L_lt _), Scalar.val_mk_ofVal _ (mod_L_lt _)]
    refine Scalar.mk_ofVal_congr ?_
    rw [mul_mod_right_L, Nat.mul_add, Nat.add_mod (a.value.val * b.value.val)]
  · rw [Scalar.mul_eq a (Scalar.ofU64 1) ha2 h1L, h1v]
    have : a.value.val * 1 % L.val = a.value.val := by
      rw [Nat.mul_one]
      exact Nat.mod_eq_of_lt ha2
    rw [this]
    exact Scalar.eq_mk_ofVal_self a ⟨ha1, ha2⟩

theorem claim_C9_witness :
    (Scalar.ofU64 2).Reduced ∧ (Scalar.ofU64 3).Reduced ∧ (Scalar.ofU64 4).Reduced ∧
    (Scalar.add (Scalar.ofU64 2) (Scalar.ofU64 3)
      = Scalar.add (Scalar.ofU64 3) (Scalar.ofU64 2) ∧
     Scalar.add (Scalar.add (Scalar.ofU64 2) (Scalar.ofU64 3)) (Scalar.ofU64 4)
      = Scalar.add (Scalar.ofU64 2) (Scalar.add (Scalar.ofU64 3) (Scalar.ofU64 4)) ∧
     Scalar.add (Scalar.ofU64 2) (Scalar.ofU64 0) = Scalar.ofU64 2 ∧
     Scalar.mul (Scalar.ofU64 2) (Scalar.ofU64 3)
      = Scalar.mul (Scalar.ofU64 3) (Scalar.ofU64 2) ∧
     Scalar.mul (Scalar.mul (Scalar.ofU64 2) (Scalar.ofU64 3)) (Scalar.ofU64 4)
      = Scalar.mul (Scalar.ofU64 2) (Scalar.mul (Scalar.ofU64 3) (Scalar.ofU64 4)) ∧
     Scalar.mul (Scalar.ofU64 2) (Scalar.add (Scalar.ofU64 3) (Scalar.ofU64 4))
      = Scalar.add (Scalar.mul (Scalar.ofU64 2) (Scalar.ofU64 3))
          (Scalar.mul (Scalar.ofU64 2) (Scalar.ofU64 4)) ∧
     Scalar.mul (Scalar.ofU64 2) (Scalar.ofU64 1) = Scalar.ofU64 2) :=
  ⟨by decide, by decide, by decide,
   claim_C9_ring_laws (Scalar.ofU64 2) (Scalar.ofU64 3) (Scalar.ofU64 4)
     (by decide) (by decide) (by decide)⟩

/-! ## Key-derivation claims -/

/-- C2 counterexample: the spec's test-vector hex strings decode to 31 bytes,
so applying `derive_public_key` to a private key holding exactly the bytes of
the spec's private-key hex string does not produce the spec's public-key byte
string (the derived key has 32 bytes). -/
theorem claim_C2_counterexample :
    (derive_public_key ⟨specPrivateBytes⟩).pk.bytes ≠ specPublicBytes := by
  decide

/-- C2 amended: with the full 32-byte test vectors of the source's own test
(private key ending 0x60, public key ending 0x1a), `derive_public_key`
reproduces the expected public key bit-exactly, and equal private-key bytes
always derive equal results. -/
theorem claim_C2_kat_amended :
    (derive_public_key ⟨testPrivateBytes⟩).pk.bytes = testPublicBytes ∧
    ∀ k k' : PrivateKey, k.bytes = k'.bytes →
      derive_public_key k = derive_public_key k' := by
  refine ⟨by decide, ?_⟩
  intro k k' h
  cases k
  cases k'
  cases h
  rfl

theorem claim_C2_witness :
    (PrivateKey.mk testPrivateBytes).bytes = (PrivateKey.mk testPrivateBytes).bytes ∧
    derive_public_key ⟨testPrivateBytes⟩ = derive_public_key ⟨testPrivateBytes⟩ :=
  ⟨rfl, claim_C2_kat_amended.2 ⟨testPrivateBytes⟩ ⟨testPrivateBytes⟩ rfl⟩

/-- C3: `derive_public_key` equals the five-step composition worded by the
spec: SHA-512 of the private bytes, low 32 bytes, clamping, base-point scalar
multiplication, and point compression. -/
theorem claim_C3_composition (k : PrivateKey) :
    (derive_public_key k).pk = spec_key_derivation k := rfl

/-- C4: contrary to the claim, `derive_public_key` does emit a secret-derived
value: the source's `println!` writes the intermediate clamped secret scalar
(all four limbs) to standard output on every call. -/
theorem claim_C4_prints_secret_scalar (k : PrivateKey) :
    (derive_public_key k).emitted =
      [[(Scalar.clamped ((sha512hash k.bytes).take 32)).value.l0,
        (Scalar.clamped ((sha512hash k.bytes).take 32)).value.l1,
        (Scalar.clamped ((sha512hash k.bytes).take 32)).value.l2,
        (Scalar.clamped ((sha512hash k.bytes).take 32)).value.l3]] ∧
    (derive_public_key k).emitted ≠ [] :=
  ⟨rfl, List.cons_ne_nil _ _⟩

/-- C10: `derive_public_key` leaves the borrowed private key unchanged, and
`gen_keypair` returns exactly the random bytes as the private key together
with the public key derived from that same private key. -/
theorem claim_C10_frame :
    (∀ k : PrivateKey, (derive_public_key k).key_after = k) ∧
    (∀ randomBytes : List Nat,
      (gen_keypair randomBytes).2.bytes = randomBytes ∧
      (gen_keypair randomBytes).1 = (derive_public_key (gen_keypair randomBytes).2).pk) :=
  ⟨fun _ => rfl, fun _ => ⟨rfl, rfl⟩⟩

end Curve25519
